import Mathlib

/-!
Verification of the elex-live-model Gaussian election model core:
`src/elexmodel/models/GaussianElectionModel.py` and
`src/elexmodel/utils/math_utils.py`, shallowly embedded over `ℚ`.
Vote counts, residual bounds and model parameters are floats in the
source; they are modelled as rationals, so every definition is
executable and arithmetic is exact.
-/

namespace ElexModel

/-! ## Preliminaries: numpy-style rounding (round half to even) -/

/-- numpy `round(decimals=0)`: round half to even, on rationals. -/
def roundHalfEven (q : ℚ) : ℤ :=
  if Int.fract q < 1/2 then ⌊q⌋
  else if (1 : ℚ)/2 < Int.fract q then ⌊q⌋ + 1
  else if ⌊q⌋ % 2 = 0 then ⌊q⌋ else ⌊q⌋ + 1

/-- Rounding reinjected into `ℚ`, as the numpy result stays a float. -/
def roundQ (q : ℚ) : ℚ := (roundHalfEven q : ℚ)

theorem floor_le_roundHalfEven (q : ℚ) : ⌊q⌋ ≤ roundHalfEven q := by
  unfold roundHalfEven
  split_ifs <;> omega

theorem roundHalfEven_le_floor_add_one (q : ℚ) : roundHalfEven q ≤ ⌊q⌋ + 1 := by
  unfold roundHalfEven
  split_ifs <;> omega

theorem roundHalfEven_mono {x y : ℚ} (h : x ≤ y) : roundHalfEven x ≤ roundHalfEven y := by
  rcases lt_or_eq_of_le (Int.floor_mono h) with hf | hf
  · calc roundHalfEven x ≤ ⌊x⌋ + 1 := roundHalfEven_le_floor_add_one x
      _ ≤ ⌊y⌋ := by omega
      _ ≤ roundHalfEven y := floor_le_roundHalfEven y
  · have hfr : Int.fract x ≤ Int.fract y := by
      unfold Int.fract
      rw [hf]
      linarith
    unfold roundHalfEven
    rw [hf]
    split_ifs <;> first | omega | linarith

theorem roundHalfEven_intCast (z : ℤ) : roundHalfEven (z : ℚ) = z := by
  unfold roundHalfEven
  rw [Int.fract_intCast, Int.floor_intCast]
  norm_num

theorem int_le_roundQ {z : ℤ} {q : ℚ} (h : (z : ℚ) ≤ q) : (z : ℚ) ≤ roundQ q := by
  have h2 := roundHalfEven_mono h
  rw [roundHalfEven_intCast] at h2
  unfold roundQ
  exact_mod_cast h2

theorem roundQ_mono {x y : ℚ} (h : x ≤ y) : roundQ x ≤ roundQ y := by
  unfold roundQ
  exact_mod_cast roundHalfEven_mono h

theorem roundQ_intCast (z : ℤ) : roundQ (z : ℚ) = (z : ℚ) := by
  unfold roundQ
  rw [roundHalfEven_intCast]

theorem roundQ_den_one (q : ℚ) : (roundQ q).den = 1 := by
  unfold roundQ
  exact Rat.den_intCast _

/-- A rational with denominator one is an integer. -/
theorem exists_int_of_den_one {q : ℚ} (h : q.den = 1) : ∃ z : ℤ, q = (z : ℚ) := by
  refine ⟨q.num, ?_⟩
  conv_lhs => rw [← Rat.num_div_den q]
  rw [h]
  norm_num

/-- A sum of integer-valued rationals is integer-valued. -/
theorem sum_int_of_den_one {l : List ℚ} (h : ∀ q ∈ l, q.den = 1) :
    ∃ z : ℤ, l.sum = (z : ℚ) := by
  induction l with
  | nil => exact ⟨0, by simp⟩
  | cons a t ih =>
    obtain ⟨z, hz⟩ := ih (fun q hq => h q (List.mem_cons_of_mem a hq))
    obtain ⟨w, hw⟩ := exists_int_of_den_one (h a (List.mem_cons_self a t))
    exact ⟨w + z, by push_cast [List.sum_cons, hz, hw]; ring⟩

/-! ## math_utils.py -/

/-- Inflation factor `compute_inflate`: sum of squared entries over square of sum of entries. -/
def compute_inflate (x : List ℚ) : ℚ :=
  (x.map (fun a => a ^ 2)).sum / x.sum ^ 2

/-- Cumulative prefix sums, as `np.cumsum`. -/
def cumsum (l : List ℚ) : List ℚ :=
  (List.range l.length).map (fun i => (l.take (i + 1)).sum)

/-- Indices of `cum` whose value is at most 1/2, as
`np.where(weights_cumulative <= 0.5)[0]`. -/
def leHalfIdxs (cum : List ℚ) : List ℕ :=
  (List.range cum.length).filter (fun i => decide (cum.getD i 0 ≤ 1/2))

/-- Index `median_index`: the last index with cumulative weight at most 1/2,
or 0 when no such index exists (the code's empty-case fallback). -/
def medianIndex (cum : List ℚ) : ℕ :=
  (leHalfIdxs cum).getLast?.getD 0

/-- Element/weight pairs sorted by element, as `np.argsort` over `x`
followed by indexing both arrays. -/
def sortedPairs (x w : List ℚ) : List (ℚ × ℚ) :=
  (x.zip w).insertionSort (fun a b => a.1 ≤ b.1)

/-- Sorted elements `x_sorted`. -/
def sortedX (x w : List ℚ) : List ℚ := (sortedPairs x w).map Prod.fst

/-- Cumulative weights `weights_cumulative` of the sorted weights. -/
def sortedCum (x w : List ℚ) : List ℚ := cumsum ((sortedPairs x w).map Prod.snd)

/-- Function `weighted_median` from math_utils.py.  The element/weight pairs are
sorted by element; `Option.none` models a numpy `IndexError` on an
out-of-range access `x_sorted[median_index + 1]`. -/
def weighted_median (x w : List ℚ) : Option ℚ :=
  let cum := sortedCum x w
  let mi := medianIndex cum
  if cum.getD mi 0 = 1/2 then
    match (sortedX x w).get? mi, (sortedX x w).get? (mi + 1) with
    | some a, some b => some ((a + b) / 2)
    | _, _ => none
  else
    (sortedX x w).get? (mi + 1)

/-! ### Lemmas about `medianIndex` and `cumsum` -/

theorem filter_range_getLast?_succ (p : ℕ → Bool) (n : ℕ) :
    ((List.range (n + 1)).filter p).getLast? =
      if p n then some n else ((List.range n).filter p).getLast? := by
  rw [List.range_succ, List.filter_append]
  by_cases h : p n
  · simp [h, List.getLast?_append]
  · simp [h]

/-- The last index below `n` satisfying `p`, when one exists: it
satisfies `p`, dominates the witness, and no later index satisfies `p`. -/
theorem filter_range_getLast?_spec {p : ℕ → Bool} {n k : ℕ}
    (hk : k < n) (hpk : p k = true) :
    ∃ m, ((List.range n).filter p).getLast? = some m ∧ p m = true ∧ k ≤ m ∧ m < n ∧
      ∀ j, m < j → j < n → p j = false := by
  induction n with
  | zero => omega
  | succ n ih =>
    rw [filter_range_getLast?_succ]
    by_cases hpn : p n
    · exact ⟨n, by simp [hpn], hpn, by omega, by omega, fun j h1 h2 => by omega⟩
    · have hk' : k < n := by
        rcases Nat.lt_succ_iff_lt_or_eq.1 hk with h | h
        · exact h
        · subst h
          rw [hpk] at hpn
          simp at hpn
      obtain ⟨m, hm1, hm2, hm3, hm4, hm5⟩ := ih hk'
      refine ⟨m, by simp [hpn, hm1], hm2, hm3, by omega, fun j hj1 hj2 => ?_⟩
      rcases Nat.lt_succ_iff_lt_or_eq.1 hj2 with h | h
      · exact hm5 j hj1 h
      · subst h
        simpa using hpn

theorem filter_range_getLast?_none {p : ℕ → Bool} {n : ℕ}
    (h : ∀ k, k < n → p k = false) :
    ((List.range n).filter p).getLast? = none := by
  have : (List.range n).filter p = [] := by
    rw [List.filter_eq_nil_iff]
    intro a ha
    simp [h a (List.mem_range.1 ha)]
  rw [this]
  rfl

theorem cumsum_length (l : List ℚ) : (cumsum l).length = l.length := by
  simp [cumsum]

theorem cumsum_getD (l : List ℚ) (i : ℕ) (h : i < l.length) :
    (cumsum l).getD i 0 = (l.take (i + 1)).sum := by
  rw [cumsum, List.getD_eq_getElem?_getD, List.getElem?_map, List.getElem?_range h]
  rfl

theorem cumsum_mono (l : List ℚ) (hnn : ∀ q ∈ l, 0 ≤ q) {i j : ℕ} (hij : i ≤ j)
    (hj : j < l.length) : (cumsum l).getD i 0 ≤ (cumsum l).getD j 0 := by
  rw [cumsum_getD _ i (lt_of_le_of_lt hij hj), cumsum_getD _ j hj]
  have hsplit : l.take (j + 1) = l.take (i + 1) ++ (l.drop (i + 1)).take (j - i) := by
    rw [← List.take_add]
    congr 1
    omega
  rw [hsplit, List.sum_append]
  have h0 : 0 ≤ ((l.drop (i + 1)).take (j - i)).sum :=
    List.sum_nonneg (fun q hq => hnn q (List.mem_of_mem_drop (List.mem_of_mem_take hq)))
  linarith

theorem cumsum_last (l : List ℚ) (h : l ≠ []) :
    (cumsum l).getD (l.length - 1) 0 = l.sum := by
  have hlen : 0 < l.length := List.length_pos.2 h
  rw [cumsum_getD _ _ (by omega)]
  have : l.length - 1 + 1 = l.length := by omega
  rw [this, List.take_length]

theorem get?_eq_some_getD {l : List ℚ} {i : ℕ} (h : i < l.length) :
    l.get? i = some (l.getD i 0) := by
  rw [List.get?_eq_getElem?, List.getElem?_eq_getElem h, List.getD_eq_getElem?_getD,
    List.getElem?_eq_getElem h]
  rfl

theorem sortedPairs_perm (x w : List ℚ) : List.Perm (sortedPairs x w) (x.zip w) :=
  List.perm_insertionSort _ _

theorem sorted_snd_eq_w {x w : List ℚ} (hlen : x.length = w.length) :
    List.Perm ((sortedPairs x w).map Prod.snd) w := by
  have h1 : List.Perm ((sortedPairs x w).map Prod.snd) ((x.zip w).map Prod.snd) :=
    (sortedPairs_perm x w).map Prod.snd
  rwa [List.map_snd_zip x w (le_of_eq hlen.symm)] at h1

/-! ### C8 and C10: behaviour of `weighted_median` -/

/-- The corrected description of `weighted_median` for non-negative
weights summing to 1, on the cumulative weights `cum` of the sorted
sample: if `cum` hits exactly 1/2 somewhere, the result averages the
sorted elements at the last such index and the next one; if `cum` stays
below-or-equal 1/2 somewhere but never equals it, the result is the
element after the last index with `cum ≤ 1/2`; if already the first
cumulative weight exceeds 1/2, `median_index` falls back to 0 and the
result is the second-smallest element — an out-of-range access (`none`)
when the input has a single element. -/
def WMSpec (x w : List ℚ) : Prop :=
  ((∃ k, k < (sortedCum x w).length ∧ (sortedCum x w).getD k 0 = 1/2) →
      (sortedCum x w).getD (medianIndex (sortedCum x w)) 0 = 1/2 ∧
      (∀ j, medianIndex (sortedCum x w) < j → j < (sortedCum x w).length →
        (sortedCum x w).getD j 0 ≠ 1/2) ∧
      medianIndex (sortedCum x w) + 1 < (sortedCum x w).length ∧
      weighted_median x w = some (((sortedX x w).getD (medianIndex (sortedCum x w)) 0 +
        (sortedX x w).getD (medianIndex (sortedCum x w) + 1) 0) / 2))
  ∧ ((∀ k, k < (sortedCum x w).length → (sortedCum x w).getD k 0 ≠ 1/2) →
      (∃ k, k < (sortedCum x w).length ∧ (sortedCum x w).getD k 0 ≤ 1/2) →
      (sortedCum x w).getD (medianIndex (sortedCum x w)) 0 ≤ 1/2 ∧
      (∀ j, medianIndex (sortedCum x w) < j → j < (sortedCum x w).length →
        ¬ (sortedCum x w).getD j 0 ≤ 1/2) ∧
      medianIndex (sortedCum x w) + 1 < (sortedCum x w).length ∧
      weighted_median x w = some ((sortedX x w).getD (medianIndex (sortedCum x w) + 1) 0))
  ∧ ((∀ k, k < (sortedCum x w).length → ¬ (sortedCum x w).getD k 0 ≤ 1/2) →
      medianIndex (sortedCum x w) = 0 ∧
      (2 ≤ (sortedCum x w).length → weighted_median x w = some ((sortedX x w).getD 1 0)) ∧
      ((sortedCum x w).length = 1 → weighted_median x w = none))

theorem get?_eq_none_of_le {l : List ℚ} {i : ℕ} (h : l.length ≤ i) :
    l.get? i = none := by
  rw [List.get?_eq_getElem?]
  exact List.getElem?_eq_none h

theorem weighted_median_eq_branches (x w : List ℚ) :
    weighted_median x w =
      if (sortedCum x w).getD (medianIndex (sortedCum x w)) 0 = 1/2 then
        match (sortedX x w).get? (medianIndex (sortedCum x w)),
            (sortedX x w).get? (medianIndex (sortedCum x w) + 1) with
        | some a, some b => some ((a + b) / 2)
        | _, _ => none
      else (sortedX x w).get? (medianIndex (sortedCum x w) + 1) := rfl

/-- C8 (amended): on non-negative weights summing to 1, `weighted_median`
follows the exact-hit average branch and the next-largest-element branch
described by `WMSpec`. -/
theorem weighted_median_amended (x w : List ℚ) (hlen : x.length = w.length)
    (hx : x ≠ []) (hnn : ∀ q ∈ w, 0 ≤ q) (hsum : w.sum = 1) : WMSpec x w := by
  have hperm := sorted_snd_eq_w (x := x) (w := w) hlen
  set ws := (sortedPairs x w).map Prod.snd with hws
  have hws_nn : ∀ q ∈ ws, 0 ≤ q := fun q hq => hnn q (hperm.mem_iff.1 hq)
  have hws_sum : ws.sum = 1 := by rw [hperm.sum_eq, hsum]
  have hn_ws : (sortedCum x w).length = ws.length := cumsum_length ws
  have hlen_ws : ws.length = x.length := by
    rw [hws, List.length_map, sortedPairs, List.length_insertionSort, List.length_zip,
      ← hlen, min_self]
  have hpos : 0 < ws.length := by
    rw [hlen_ws]
    exact List.length_pos.2 hx
  have hxs_cum : (sortedX x w).length = (sortedCum x w).length := by
    rw [hn_ws, hws, List.length_map, sortedX, List.length_map]
  have hlast : (sortedCum x w).getD ((sortedCum x w).length - 1) 0 = 1 := by
    rw [hn_ws]
    rw [show sortedCum x w = cumsum ws from rfl, cumsum_last ws (List.ne_nil_of_length_pos hpos)]
    exact hws_sum
  have hmono : ∀ {i j : ℕ}, i ≤ j → j < (sortedCum x w).length →
      (sortedCum x w).getD i 0 ≤ (sortedCum x w).getD j 0 := by
    intro i j hij hj
    exact cumsum_mono ws hws_nn hij (hn_ws ▸ hj)
  refine ⟨?_, ?_, ?_⟩
  · rintro ⟨k, hk, hke⟩
    have hpk : decide ((sortedCum x w).getD k 0 ≤ 1/2) = true := decide_eq_true (le_of_eq hke)
    obtain ⟨m, hm1, hm2, hm3, hm4, hm5⟩ :=
      filter_range_getLast?_spec (p := fun i => decide ((sortedCum x w).getD i 0 ≤ 1/2))
        (n := (sortedCum x w).length) hk hpk
    have hmi : medianIndex (sortedCum x w) = m := by
      unfold medianIndex leHalfIdxs
      rw [hm1]
      rfl
    have hm_le : (sortedCum x w).getD m 0 ≤ 1/2 := of_decide_eq_true hm2
    have heq : (sortedCum x w).getD m 0 = 1/2 :=
      le_antisymm hm_le (hke ▸ hmono hm3 hm4)
    have hm_ne : m ≠ (sortedCum x w).length - 1 := by
      intro h
      rw [h, hlast] at heq
      norm_num at heq
    have hm1lt : m + 1 < (sortedCum x w).length := by omega
    refine ⟨hmi ▸ heq, ?_, hmi ▸ hm1lt, ?_⟩
    · intro j hj1 hj2 habs
      have := hm5 j (hmi ▸ hj1) hj2
      rw [decide_eq_false_iff_not] at this
      exact this (le_of_eq habs)
    · rw [weighted_median_eq_branches, hmi, if_pos heq,
        get?_eq_some_getD (hxs_cum ▸ (by omega : m < (sortedCum x w).length)),
        get?_eq_some_getD (hxs_cum ▸ hm1lt)]
  · intro hne
    rintro ⟨k, hk, hkle⟩
    have hpk : decide ((sortedCum x w).getD k 0 ≤ 1/2) = true := decide_eq_true hkle
    obtain ⟨m, hm1, hm2, hm3, hm4, hm5⟩ :=
      filter_range_getLast?_spec (p := fun i => decide ((sortedCum x w).getD i 0 ≤ 1/2))
        (n := (sortedCum x w).length) hk hpk
    have hmi : medianIndex (sortedCum x w) = m := by
      unfold medianIndex leHalfIdxs
      rw [hm1]
      rfl
    have hm_le : (sortedCum x w).getD m 0 ≤ 1/2 := of_decide_eq_true hm2
    have hm_ne : m ≠ (sortedCum x w).length - 1 := by
      intro h
      rw [h, hlast] at hm_le
      norm_num at hm_le
    have hm1lt : m + 1 < (sortedCum x w).length := by omega
    refine ⟨hmi ▸ hm_le, ?_, hmi ▸ hm1lt, ?_⟩
    · intro j hj1 hj2 habs
      have := hm5 j (hmi ▸ hj1) hj2
      rw [decide_eq_false_iff_not] at this
      exact this habs
    · rw [weighted_median_eq_branches, hmi, if_neg (hne m hm4),
        get?_eq_some_getD (hxs_cum ▸ hm1lt)]
  · intro hall
    have hmi : medianIndex (sortedCum x w) = 0 := by
      unfold medianIndex leHalfIdxs
      rw [filter_range_getLast?_none (fun k hk => ?_)]
      · rfl
      · rw [decide_eq_false_iff_not]
        exact hall k hk
    have h0lt : 0 < (sortedCum x w).length := hn_ws ▸ hpos
    have hne0 : ¬ (sortedCum x w).getD 0 0 = 1/2 := by
      intro h
      exact hall 0 h0lt (le_of_eq h)
    refine ⟨hmi, ?_, ?_⟩
    · intro h2
      rw [weighted_median_eq_branches, hmi, if_neg hne0,
        get?_eq_some_getD (hxs_cum ▸ (by omega : (0:ℕ) + 1 < (sortedCum x w).length))]
    · intro h1
      rw [weighted_median_eq_branches, hmi, if_neg hne0,
        get?_eq_none_of_le (by rw [hxs_cum, h1] : (sortedX x w).length ≤ 0 + 1)]



/-- C8 counterexample: weights sum to 1 and the cumulative weight hits
exactly 1/2 at index 0, yet the function returns 3 — not the average
3/2 of the sorted elements at indices 0 and 1 — because a later
(negative-weight) cumulative value below 1/2 moves `median_index`. -/
theorem weighted_median_counterexample :
    ([1/2, -1/5, 7/10] : List ℚ).sum = 1
    ∧ (sortedCum [1, 2, 3] [1/2, -1/5, 7/10]).getD 0 0 = 1/2
    ∧ weighted_median [1, 2, 3] [1/2, -1/5, 7/10] = some 3
    ∧ some (((1:ℚ) + 2) / 2) ≠ some (3:ℚ) := by
  refine ⟨by norm_num, ?_, ?_, by norm_num⟩
  · norm_num [sortedCum, sortedPairs, cumsum, List.insertionSort, List.orderedInsert,
      List.range_succ]
  · norm_num [weighted_median, sortedCum, sortedX, sortedPairs, cumsum, leHalfIdxs,
      medianIndex, List.insertionSort, List.orderedInsert, List.range_succ]

/-- C8 witness at a concrete exact-hit input. -/
theorem weighted_median_amended_witness : WMSpec [1, 2, 3] [1/5, 3/10, 1/2] :=
  weighted_median_amended [1, 2, 3] [1/5, 3/10, 1/2] (by norm_num) (by simp)
    (by norm_num) (by norm_num)

/-- C10: the claim that every index access in `weighted_median` stays in
bounds fails on the single-element input `x = [5]`, `w = [1]` (weights
sum to 1): `median_index` falls back to 0 and the code reads
`x_sorted[1]` past the end of the one-element array. -/
theorem weighted_median_single_element_oob :
    ([1] : List ℚ).sum = 1 ∧ weighted_median [5] [1] = none := by
  refine ⟨by norm_num, ?_⟩
  norm_num [weighted_median, sortedCum, sortedX, sortedPairs, cumsum, leHalfIdxs,
    medianIndex, List.insertionSort, List.orderedInsert, List.range_succ]

/-! ### C9: `compute_inflate` -/

/-- C9: `compute_inflate` is the sum of squared entries divided by the
square of the sum of entries, and takes the stated values on
`[1,1,1,1]` and `[2]`. -/
theorem compute_inflate_spec :
    (∀ x : List ℚ, compute_inflate x = (x.map (fun a => a ^ 2)).sum / x.sum ^ 2)
    ∧ compute_inflate [1, 1, 1, 1] = 1/4 ∧ compute_inflate [2] = 1 :=
  ⟨fun _ => rfl, by norm_num [compute_inflate], by norm_num [compute_inflate]⟩

/-! ## GaussianElectionModel.py: unit-level corrector -/

/-- A nonreporting unit row together with its unadjusted residual-space
bounds (`prediction_intervals.lower/.upper`, aligned with the unit by
the base interval computation), the turnout denominator
`total_voters_<estimand>`, the baseline `last_election_results_<estimand>`
and the votes `results_<estimand>` observed so far. -/
structure NRUnit where
  pi_lower : ℚ
  pi_upper : ℚ
  total_voters : ℚ
  last_election_results : ℚ
  results : ℚ
  deriving DecidableEq

/-- Outputs of `get_unit_prediction_intervals`: the two arrays cached on
the instance (`self.nonreporting_lower_bounds` and
`self.nonreporting_upper_bounds`) next to the returned rounded
vote-space bounds. -/
structure UnitPIResult where
  cache_lower : List ℚ
  cache_upper : List ℚ
  lower : List ℚ
  upper : List ℚ
  deriving DecidableEq

/-- Per-unit lower bound (lines 64-81): subtract the lower correction,
un-normalize by `total_voters`, shift by `last_election_results`, floor
at `results`, round. -/
def unitLowerBound (lc : ℚ) (u : NRUnit) : ℚ :=
  roundQ (max ((u.pi_lower - lc) * u.total_voters + u.last_election_results) u.results)

/-- Per-unit upper bound (lines 65-81): add the upper correction, then
as for the lower bound. -/
def unitUpperBound (uc : ℚ) (u : NRUnit) : ℚ :=
  roundQ (max ((u.pi_upper + uc) * u.total_voters + u.last_election_results) u.results)

/-- Method `get_unit_prediction_intervals` (GaussianElectionModel.py lines
24-82).  The Gaussian fit and `scipy.stats.norm.ppf` live outside this
repository; modelled from the spec, the lower/upper corrections `lc`,
`uc` are parameters (`ppf(q, loc, scale) = loc + scale * z` with `loc`
the fitted residual mean, unconstrained in sign, so the corrections can
take any rational value).  The instance cache is assigned from
`prediction_intervals.lower/.upper` at lines 59-61, before the
corrections are applied at lines 64-65. -/
def get_unit_prediction_intervals (lc uc : ℚ) (units : List NRUnit) : UnitPIResult :=
  { cache_lower := units.map (fun u => u.pi_lower)
    cache_upper := units.map (fun u => u.pi_upper)
    lower := units.map (unitLowerBound lc)
    upper := units.map (unitUpperBound uc) }

/-- C2 counterexample: with a negative fitted mean the corrections are
negative and the returned interval at the single unit has upper bound 0
strictly below both its lower bound 5 and the fractional observed
results 1/2. -/
theorem unit_intervals_counterexample :
    (get_unit_prediction_intervals (-5) (-5) [(⟨0, 0, 1, 0, 1/2⟩ : NRUnit)]).lower = [5]
    ∧ (get_unit_prediction_intervals (-5) (-5) [(⟨0, 0, 1, 0, 1/2⟩ : NRUnit)]).upper = [0]
    ∧ ¬ ((5 : ℚ) ≤ 0) ∧ ¬ ((1/2 : ℚ) ≤ 0) := by
  refine ⟨?_, ?_, by norm_num, by norm_num⟩ <;>
    norm_num [get_unit_prediction_intervals, unitLowerBound, unitUpperBound, roundQ,
      roundHalfEven, Int.fract, max_def]

/-- C2 (amended) conclusion: the returned per-unit bounds are ordered
and floored at the observed results. -/
def UnitFloorSpec (lc uc : ℚ) (units : List NRUnit) : Prop :=
  (get_unit_prediction_intervals lc uc units).lower = units.map (unitLowerBound lc)
  ∧ (get_unit_prediction_intervals lc uc units).upper = units.map (unitUpperBound uc)
  ∧ ∀ u ∈ units, unitLowerBound lc u ≤ unitUpperBound uc u
      ∧ u.results ≤ unitLowerBound lc u ∧ u.results ≤ unitUpperBound uc u

/-- C2 (amended): when the Gaussian corrections are non-negative, the
unadjusted bounds are ordered, turnout is non-negative and the observed
results are whole numbers, every returned unit interval satisfies
`lower ≤ upper` and both bounds are at least the observed results. -/
theorem unit_intervals_floor_amended (lc uc : ℚ) (units : List NRUnit)
    (hlc : 0 ≤ lc) (huc : 0 ≤ uc)
    (hpi : ∀ u ∈ units, u.pi_lower ≤ u.pi_upper)
    (htv : ∀ u ∈ units, 0 ≤ u.total_voters)
    (hres : ∀ u ∈ units, u.results.den = 1) :
    UnitFloorSpec lc uc units := by
  refine ⟨rfl, rfl, fun u hu => ?_⟩
  obtain ⟨z, hz⟩ := exists_int_of_den_one (hres u hu)
  have h1 : (u.pi_lower - lc) * u.total_voters ≤ (u.pi_upper + uc) * u.total_voters :=
    mul_le_mul_of_nonneg_right (by linarith [hpi u hu]) (htv u hu)
  refine ⟨roundQ_mono (max_le_max (by linarith) le_rfl), ?_, ?_⟩
  · rw [hz]
    exact int_le_roundQ (by rw [← hz]; exact le_max_right _ _)
  · rw [hz]
    exact int_le_roundQ (by rw [← hz]; exact le_max_right _ _)

/-- C2 witness at a concrete input. -/
theorem unit_intervals_floor_amended_witness :
    UnitFloorSpec 1 1 [(⟨0, 1, 2, 3, 4⟩ : NRUnit)] :=
  unit_intervals_floor_amended 1 1 [(⟨0, 1, 2, 3, 4⟩ : NRUnit)] (by norm_num) (by norm_num)
    (by intro u hu; rw [List.mem_singleton] at hu; subst hu; norm_num)
    (by intro u hu; rw [List.mem_singleton] at hu; subst hu; norm_num)
    (by intro u hu; rw [List.mem_singleton] at hu; subst hu; rfl)

/-- C4 counterexample: with correction 1, the cached lower array is the
unadjusted `[1]`, not the corrected `[1 - 1] = [0]` the claim asserts. -/
theorem cache_counterexample :
    (get_unit_prediction_intervals 1 1 [(⟨1, 2, 1, 0, 0⟩ : NRUnit)]).cache_lower
      ≠ [(⟨1, 2, 1, 0, 0⟩ : NRUnit)].map (fun u => u.pi_lower - 1) := by
  norm_num [get_unit_prediction_intervals]

/-- C4 (amended): the instance cache holds the residual-space bounds as
they stand *before* the Gaussian correction is applied (the unadjusted
`prediction_intervals` arrays) and before un-normalization, while the
returned bounds do apply the correction. -/
theorem cache_amended (lc uc : ℚ) (units : List NRUnit) :
    (get_unit_prediction_intervals lc uc units).cache_lower = units.map (fun u => u.pi_lower)
    ∧ (get_unit_prediction_intervals lc uc units).cache_upper = units.map (fun u => u.pi_upper)
    ∧ (get_unit_prediction_intervals lc uc units).lower
        = units.map (fun u => roundQ (max ((u.pi_lower - lc) * u.total_voters
            + u.last_election_results) u.results))
    ∧ (get_unit_prediction_intervals lc uc units).upper
        = units.map (fun u => roundQ (max ((u.pi_upper + uc) * u.total_voters
            + u.last_election_results) u.results)) :=
  ⟨rfl, rfl, rfl, rfl⟩

/-! ## GaussianElectionModel.py: aggregate-level corrector -/

/-- A reporting or unexpected unit row: aggregation-key values (the key
columns of actual units are non-null) and observed results. -/
structure ObsUnit where
  key : List ℚ
  results : ℚ
  deriving DecidableEq

/-- A nonreporting unit row as seen by the aggregate corrector. -/
structure AggUnit where
  key : List ℚ
  total_voters : ℚ
  last_election_results : ℚ
  results : ℚ
  deriving DecidableEq

/-- A fitted Gaussian model row.  `keys` holds the aggregation-key
values identifying the group; `none` is pandas `NaN`, marking a row fit
at a coarser level (spec section 3: for any group with insufficient
calibration data the key columns are null). -/
structure GRow where
  keys : List (Option ℚ)
  mu_lower_bound : ℚ
  sigma_lower_bound : ℚ
  mu_upper_bound : ℚ
  sigma_upper_bound : ℚ
  var_inflate : ℚ
  deriving DecidableEq

/-- One row of the grouped `bounds` frame (lines 139-156): per-group
sums of weighted cached bounds, of weights and of squared weights. -/
structure BoundRow where
  key : List ℚ
  lower_sum : ℚ
  upper_sum : ℚ
  weight_sum : ℚ
  weight_ssum : ℚ
  deriving DecidableEq

/-- Python exceptions reachable in the aggregate corrector. -/
inductive AggError
  | attributeError
  | valueError
  | assertionError
  deriving DecidableEq

/-- Group keys of a list of nonreporting units (pandas `groupby` group
labels; group order is immaterial to the properties proved here). -/
def aggKeysN (nr : List AggUnit) : List (List ℚ) :=
  (nr.map (fun u => u.key)).dedup

/-- Group keys of a list of observed units. -/
def aggKeysO (units : List ObsUnit) : List (List ℚ) :=
  (units.map (fun u => u.key)).dedup

/-- Modelled from the spec: `_get_reporting_aggregate_votes` lives in
`BaseElectionModel` (not part of this excerpt); per spec section 4.3
step 1 it sums `results_<estimand>` over reporting plus unexpected
units, grouped by the aggregation keys. -/
def obsGroupVotes (units : List ObsUnit) : List (List ℚ × ℚ) :=
  (aggKeysO units).map (fun k =>
    (k, ((units.filter (fun u => decide (u.key = k))).map (fun u => u.results)).sum))

/-- Modelled from the spec: `_get_nonreporting_aggregate_votes` (votes
already seen in nonreporting units) summed over one group. -/
def nrSeen (nr : List AggUnit) (k : List ℚ) : ℚ :=
  ((nr.filter (fun u => decide (u.key = k))).map (fun u => u.results)).sum

/-- Baseline `last_election` (lines 108-112) for one group. -/
def lastElectionSum (nr : List AggUnit) (k : List ℚ) : ℚ :=
  ((nr.filter (fun u => decide (u.key = k))).map (fun u => u.last_election_results)).sum

/-- The grouped `bounds` frame (lines 132-156): the cached unit bound
arrays are zipped against the nonreporting units they are aligned with,
then grouped and summed. -/
def boundRows (nr : List AggUnit) (cl cu : List ℚ) : List BoundRow :=
  (aggKeysN nr).map (fun k =>
    let g := (nr.zip (cl.zip cu)).filter (fun p => decide (p.1.key = k))
    { key := k
      lower_sum := (g.map (fun p => p.1.total_voters * p.2.1)).sum
      upper_sum := (g.map (fun p => p.1.total_voters * p.2.2)).sum
      weight_sum := (g.map (fun p => p.1.total_voters)).sum
      weight_ssum := (g.map (fun p => p.1.total_voters ^ 2)).sum })

/-! ### The hierarchical model-matching loop (lines 158-230) -/

/-- Test `pd.isnull(gaussian_model[last_i_aggregate]).all(axis=1)`: the last
`i` of the `L` key columns are all null. -/
def noneSuffix (L i : ℕ) (ks : List (Option ℚ)) : Bool :=
  (ks.drop (L - i)).all (fun o => o.isNone)

/-- Join condition of the merge on `next_aggregate`: the first `n` model
key columns equal the first `n` (non-null) bound key columns.  A null
model key never equals a bound key value, as in pandas. -/
def keyMatches (n : ℕ) (b : BoundRow) (m : GRow) : Bool :=
  decide (m.keys.take n = (b.key.take n).map some)

/-- Initial inner join of `bounds` with the model on all aggregates
(line 170): a model row matches iff all its key columns equal the
group's. -/
def initMatch (bounds : List BoundRow) (models : List GRow) : List (BoundRow × GRow) :=
  bounds.flatMap (fun b =>
    (models.filter (fun m => decide (m.keys = b.key.map some))).map (fun m => (b, m)))

/-- The anti-join test (lines 207-211): the group already appears in
`modeled_bounds` (merge on the aggregate key columns). -/
def alreadyMatched (modeled : List (BoundRow × GRow)) (b : BoundRow) : Bool :=
  modeled.any (fun p => decide (p.1.key = b.key))

/-- One iteration of the matching loop (lines 178-230) at level `i`:
models whose last `i` key columns are null are joined to the
still-unmatched groups on the first `L - i` key columns; when the key
sublist is exhausted the at-most-one remaining top-level row is
cross-joined to every remaining group (`none` models the `assert` at
line 224 failing). -/
def levelStep (L : ℕ) (bounds : List BoundRow) (models : List GRow)
    (modeled : List (BoundRow × GRow)) (i : ℕ) : Option (List (BoundRow × GRow)) :=
  let remainingModels := models.filter (fun m => noneSuffix L i m.keys)
  let remainingBounds := bounds.filter (fun b => ! alreadyMatched modeled b)
  if L - i = 0 then
    if remainingModels.length ≤ 1 then
      some (modeled ++ remainingBounds.flatMap (fun b =>
        remainingModels.map (fun m => (b, m))))
    else none
  else
    some (modeled ++ remainingBounds.flatMap (fun b =>
      (remainingModels.filter (fun m => keyMatches (L - i) b m)).map (fun m => (b, m))))

/-- The full matching pass: the initial inner join followed by the loop
`for i in range(1, len(aggregate) + 1)`. -/
def matchLoop (L : ℕ) (bounds : List BoundRow) (models : List GRow) :
    Option (List (BoundRow × GRow)) :=
  (List.range' 1 L).foldlM (levelStep L bounds models) (initMatch bounds models)

/-- Gaussian correction of one matched (group, model) pair (lines
235-250), with `ppf(q, loc, scale) = loc + scale * z` for `z` the
standard normal quantile at `(3 + alpha) / 4` and `sq` standing for
`np.sqrt`; returns the group key with its corrected `lb` and `ub`. -/
def modeledLB (z : ℚ) (sq : ℚ → ℚ) (p : BoundRow × GRow) : List ℚ × ℚ × ℚ :=
  let sd_arg := sq (p.1.weight_ssum + p.2.var_inflate * p.1.weight_sum ^ 2)
  (p.1.key,
   p.1.lower_sum - (p.1.weight_sum * p.2.mu_lower_bound + p.2.sigma_lower_bound * sd_arg * z),
   p.1.upper_sum + (p.1.weight_sum * p.2.mu_upper_bound + p.2.sigma_upper_bound * sd_arg * z))

/-- Lines 257-268: merge `last_election` (one row per nonreporting
group) with the corrected bounds, add the baseline and clamp at the
votes already seen in nonreporting units.  The positional alignment of
`aggregate_nonreporting_votes` in the source holds groupwise because
both frames carry one row per nonreporting group in the same order. -/
def predictionRows (nr : List AggUnit) (z : ℚ) (sq : ℚ → ℚ)
    (modeled : List (BoundRow × GRow)) : List (List ℚ × ℚ × ℚ) :=
  (aggKeysN nr).flatMap (fun k =>
    ((modeled.map (modeledLB z sq)).filter (fun r => decide (r.1 = k))).map (fun r =>
      (k, max (lastElectionSum nr k + r.2.1) (nrSeen nr k),
          max (lastElectionSum nr k + r.2.2) (nrSeen nr k))))

/-- Lines 271-280: outer merge of the observed aggregate votes with the
prediction rows, missing values filled with 0; each row carries
(key, observed results, predicted_lower, predicted_upper). -/
def outerRows (av : List (List ℚ × ℚ)) (preds : List (List ℚ × ℚ × ℚ)) :
    List (List ℚ × ℚ × ℚ × ℚ) :=
  av.flatMap (fun a =>
    if (preds.filter (fun p => decide (p.1 = a.1))).isEmpty then [(a.1, a.2, 0, 0)]
    else (preds.filter (fun p => decide (p.1 = a.1))).map
      (fun p => (a.1, a.2, p.2.1, p.2.2)))
  ++ (preds.filter (fun p => av.all (fun a => ! decide (a.1 = p.1)))).map
      (fun p => (p.1, 0, p.2.1, p.2.2))

/-- Method `get_aggregate_prediction_intervals` (lines 84-282) over `L`
aggregation keys.  The fitted `gaussian_model` rows are an input (the
fit itself lives in `GaussianModel`, outside this excerpt); `cache` is
the instance state written by `get_unit_prediction_intervals` (`none`
when no prior call populated it, raising `AttributeError`); `z` and
`sq` stand for the normal quantile at `(3+alpha)/4` and `np.sqrt`.
Output rows are (group key, lower, upper). -/
def get_aggregate_prediction_intervals (L : ℕ) (reporting unexpected : List ObsUnit)
    (nr : List AggUnit) (models : List GRow) (cache : Option (List ℚ × List ℚ))
    (z : ℚ) (sq : ℚ → ℚ) : Except AggError (List (List ℚ × ℚ × ℚ)) :=
  let aggregate_votes := obsGroupVotes (reporting ++ unexpected)
  if nr.isEmpty then
    Except.ok (aggregate_votes.map (fun p => (p.1, p.2, p.2)))
  else
    match cache with
    | Option.none => Except.error AggError.attributeError
    | Option.some c =>
      if c.1.length = nr.length ∧ c.2.length = nr.length then
        match matchLoop L (boundRows nr c.1 c.2) models with
        | Option.none => Except.error AggError.assertionError
        | Option.some modeled =>
          Except.ok ((outerRows aggregate_votes (predictionRows nr z sq modeled)).map
            (fun r => (r.1, roundQ (r.2.2.1 + r.2.1), roundQ (r.2.2.2 + r.2.1))))
      else Except.error AggError.valueError

/-! ### Counting matched pairs per group key -/

/-- Number of matched pairs carrying group key `k`. -/
def cntKey (ms : List (BoundRow × GRow)) (k : List ℚ) : ℕ :=
  (ms.filter (fun p => decide (p.1.key = k))).length

/-- A matched pair is consistent: the model row is fit at some level
`j`, its first `j` key columns agreeing with the group and the dropped
trailing columns null. -/
def consistentPair (L : ℕ) (p : BoundRow × GRow) : Prop :=
  ∃ j, j ≤ L ∧ p.2.keys = (p.1.key.take j).map some ++ List.replicate (L - j) Option.none

theorem cntKey_append (a b : List (BoundRow × GRow)) (k : List ℚ) :
    cntKey (a ++ b) k = cntKey a k + cntKey b k := by
  simp [cntKey, List.filter_append]

theorem cntKey_pairs (b : BoundRow) (l : List GRow) (k : List ℚ) :
    cntKey (l.map (fun m => (b, m))) k = if b.key = k then l.length else 0 := by
  induction l with
  | nil => simp [cntKey]
  | cons m t ih =>
    rw [List.map_cons]
    by_cases h : b.key = k
    · simp only [cntKey, List.filter_cons] at ih ⊢
      simp [h] at ih ⊢
      exact ih
    · simp only [cntKey, List.filter_cons] at ih ⊢
      simp [h] at ih ⊢

theorem alreadyMatched_iff (ms : List (BoundRow × GRow)) (b : BoundRow) :
    alreadyMatched ms b = true ↔ cntKey ms b.key ≠ 0 := by
  rw [alreadyMatched, List.any_eq_true]
  constructor
  · rintro ⟨p, hp, hdec⟩ h0
    have hmem : p ∈ ms.filter (fun p => decide (p.1.key = b.key)) :=
      List.mem_filter.2 ⟨hp, hdec⟩
    rw [cntKey, List.length_eq_zero] at h0
    rw [h0] at hmem
    exact absurd hmem (List.not_mem_nil p)
  · intro h0
    rw [cntKey] at h0
    have hne : ms.filter (fun p => decide (p.1.key = b.key)) ≠ [] := by
      intro h
      rw [h] at h0
      exact h0 rfl
    obtain ⟨p, hp⟩ := List.exists_mem_of_ne_nil _ hne
    exact ⟨p, (List.mem_filter.1 hp).1, (List.mem_filter.1 hp).2⟩

theorem alreadyMatched_key_congr (ms : List (BoundRow × GRow)) {b b' : BoundRow}
    (h : b.key = b'.key) : alreadyMatched ms b = alreadyMatched ms b' := by
  simp [alreadyMatched, h]

theorem cntKey_flatMap_zero {rb : List BoundRow} {f : BoundRow → List GRow} {k : List ℚ}
    (h : ∀ b ∈ rb, b.key ≠ k) :
    cntKey (rb.flatMap (fun b => (f b).map (fun m => (b, m)))) k = 0 := by
  induction rb with
  | nil => rfl
  | cons b t ih =>
    rw [List.flatMap_cons, cntKey_append, cntKey_pairs,
      if_neg (h b (List.mem_cons_self b t)),
      ih (fun b' hb' => h b' (List.mem_cons_of_mem b hb'))]

theorem cntKey_flatMap_of_mem {rb : List BoundRow} {f : BoundRow → List GRow} {k : List ℚ}
    {b0 : BoundRow} (hnd : (rb.map (fun b => b.key)).Nodup) (hb0 : b0 ∈ rb)
    (hk : b0.key = k) :
    cntKey (rb.flatMap (fun b => (f b).map (fun m => (b, m)))) k = (f b0).length := by
  induction rb with
  | nil => exact absurd hb0 (List.not_mem_nil b0)
  | cons b t ih =>
    rw [List.map_cons, List.nodup_cons] at hnd
    rw [List.flatMap_cons, cntKey_append]
    rcases List.mem_cons.1 hb0 with h | h
    · subst h
      rw [cntKey_pairs, if_pos hk, cntKey_flatMap_zero (fun b' hb' hkeq => hnd.1 ?_)]
      · omega
      · rw [hk, ← hkeq]
        exact List.mem_map.2 ⟨b', hb', rfl⟩
    · have hbne : b.key ≠ k := by
        intro hbk
        exact hnd.1 (hbk ▸ hk ▸ List.mem_map.2 ⟨b0, h, rfl⟩)
      rw [cntKey_pairs, if_neg hbne, ih hnd.2 h]
      omega

theorem length_filter_le_one_of_keys_eq {l : List GRow}
    (hnd : (l.map (fun m => m.keys)).Nodup) {p : GRow → Bool} {c : List (Option ℚ)}
    (hc : ∀ m ∈ l, p m = true → m.keys = c) :
    (l.filter p).length ≤ 1 := by
  induction l with
  | nil => simp
  | cons m t ih =>
    rw [List.map_cons, List.nodup_cons] at hnd
    rw [List.filter_cons]
    by_cases h : p m
    · have ht : t.filter p = [] := by
        rw [List.filter_eq_nil_iff]
        intro a ha hpa
        have h1 : a.keys = c := hc a (List.mem_cons_of_mem m ha) hpa
        have h2 : m.keys = c := hc m (List.mem_cons_self m t) h
        exact hnd.1 (h2 ▸ h1 ▸ List.mem_map.2 ⟨a, ha, rfl⟩)
      simp [h, ht]
    · simp only [h]
      exact ih hnd.2 (fun a ha hpa => hc a (List.mem_cons_of_mem m ha) hpa)

/-! ### Model-row key patterns -/

/-- The spec's model-row invariant (section 3): the key columns of a
fitted row are a run of group values followed by nulls. -/
def rowPattern (L : ℕ) (m : GRow) : Prop :=
  ∃ vs : List ℚ, vs.length ≤ L
    ∧ m.keys = vs.map some ++ List.replicate (L - vs.length) Option.none

theorem noneSuffix_self (L : ℕ) (ks : List (Option ℚ)) :
    noneSuffix L L ks = ks.all (fun o => o.isNone) := by
  simp [noneSuffix, Nat.sub_self]

theorem top_row_keys {L : ℕ} {m : GRow} (hpat : rowPattern L m)
    (hall : m.keys.all (fun o => o.isNone) = true) :
    m.keys = List.replicate L Option.none := by
  obtain ⟨vs, hle, hkeys⟩ := hpat
  cases vs with
  | nil => simpa using hkeys
  | cons a t =>
    exfalso
    have hmem : some a ∈ m.keys := by
      rw [hkeys]
      exact List.mem_append_left _ (by simp)
    have h2 := List.all_eq_true.1 hall _ hmem
    simp at h2

theorem matched_model_keys {L i : ℕ} {b : BoundRow} {m : GRow}
    (hiL : i ≤ L) (hbk : b.key.length = L) (hpat : rowPattern L m)
    (hns : noneSuffix L i m.keys = true)
    (hkm : keyMatches (L - i) b m = true) :
    m.keys = (b.key.take (L - i)).map some ++ List.replicate i Option.none := by
  obtain ⟨vs, hvsle, hkeys⟩ := hpat
  have hlen : vs.length ≤ L - i := by
    by_contra hlt
    push_neg at hlt
    have hdrop : m.keys.drop (L - i) = (vs.map some).drop (L - i)
        ++ (List.replicate (L - vs.length) Option.none).drop
            (L - i - (vs.map some).length) := by
      rw [hkeys, List.drop_append_eq_append_drop]
    have hl : 0 < ((vs.map some).drop (L - i)).length := by
      rw [List.length_drop, List.length_map]
      omega
    obtain ⟨o, ho⟩ := List.exists_mem_of_length_pos hl
    have ho2 : o ∈ m.keys.drop (L - i) := by
      rw [hdrop]
      exact List.mem_append_left _ ho
    have hnone := List.all_eq_true.1 hns o ho2
    obtain ⟨a, _, rfl⟩ := List.mem_map.1 (List.mem_of_mem_drop ho)
    simp at hnone
  have htake : m.keys.take (L - i) = vs.map some
      ++ List.replicate (L - i - vs.length) Option.none := by
    rw [hkeys, List.take_append_eq_append_take,
      List.take_of_length_le (by rw [List.length_map]; exact hlen), List.take_replicate,
      List.length_map]
    congr 2
    omega
  have hkm2 : m.keys.take (L - i) = (b.key.take (L - i)).map some := of_decide_eq_true hkm
  have hvslen : vs.length = L - i := by
    by_contra hne
    have hlt : vs.length < L - i := lt_of_le_of_ne hlen hne
    have hmem : (Option.none : Option ℚ) ∈ m.keys.take (L - i) := by
      rw [htake]
      exact List.mem_append_right _ (List.mem_replicate.2 ⟨by omega, rfl⟩)
    rw [hkm2] at hmem
    obtain ⟨a, _, ha⟩ := List.mem_map.1 hmem
    exact Option.noConfusion ha
  have hvs : vs.map some = (b.key.take (L - i)).map some := by
    rw [← hkm2, htake, hvslen]
    simp
  have hvs2 : vs = b.key.take (L - i) :=
    List.map_injective_iff.2 (fun a b h => Option.some.inj h) hvs
  rw [hkeys, hvs2]
  have hlen2 : (List.take (L - i) b.key).length = L - i := by
    rw [List.length_take]
    omega
  rw [hlen2]
  have hrep : L - (L - i) = i := by omega
  rw [hrep]

/-! ### The matching invariant -/

/-- Invariant carried through the matching loop: every group is matched
at most once, and every matched pair is a (group, model) pair with a
consistent key pattern. -/
def MatchInv (L : ℕ) (bounds : List BoundRow) (models : List GRow)
    (ms : List (BoundRow × GRow)) : Prop :=
  (∀ b ∈ bounds, cntKey ms b.key ≤ 1)
  ∧ (∀ p ∈ ms, p.1 ∈ bounds ∧ p.2 ∈ models ∧ consistentPair L p)

theorem initMatch_inv {L : ℕ} {bounds : List BoundRow} {models : List GRow}
    (hbk : ∀ b ∈ bounds, b.key.length = L)
    (hnd : (bounds.map (fun b => b.key)).Nodup)
    (hmnd : (models.map (fun m => m.keys)).Nodup) :
    MatchInv L bounds models (initMatch bounds models) := by
  constructor
  · intro b hb
    rw [initMatch, cntKey_flatMap_of_mem hnd hb rfl]
    exact length_filter_le_one_of_keys_eq hmnd
      (fun m hm hpm => by rw [of_decide_eq_true hpm])
  · intro p hp
    rw [initMatch, List.mem_flatMap] at hp
    obtain ⟨b, hb, hp2⟩ := hp
    obtain ⟨m, hm, rfl⟩ := List.mem_map.1 hp2
    obtain ⟨hm1, hm2⟩ := List.mem_filter.1 hm
    refine ⟨hb, hm1, L, le_rfl, ?_⟩
    rw [of_decide_eq_true hm2, List.take_of_length_le (le_of_eq (hbk b hb)),
      Nat.sub_self]
    simp

theorem levelStep_inv {L : ℕ} {bounds : List BoundRow} {models : List GRow}
    {ms : List (BoundRow × GRow)} {i : ℕ} (hi1 : 1 ≤ i) (hiL : i < L)
    (hbk : ∀ b ∈ bounds, b.key.length = L)
    (hnd : (bounds.map (fun b => b.key)).Nodup)
    (hmnd : (models.map (fun m => m.keys)).Nodup)
    (hpat : ∀ m ∈ models, rowPattern L m)
    (hinv : MatchInv L bounds models ms) :
    ∃ ms', levelStep L bounds models ms i = some ms'
      ∧ MatchInv L bounds models ms' ∧ ∀ p ∈ ms, p ∈ ms' := by
  have hLi : ¬ (L - i = 0) := by omega
  set rm := models.filter (fun m => noneSuffix L i m.keys) with hrm
  set rb := bounds.filter (fun b => ! alreadyMatched ms b) with hrb
  set ms' := ms ++ rb.flatMap (fun b =>
    (rm.filter (fun m => keyMatches (L - i) b m)).map (fun m => (b, m))) with hms'
  have hrbnd : (rb.map (fun b => b.key)).Nodup :=
    List.Nodup.sublist (List.Sublist.map _ (List.filter_sublist _)) hnd
  have hstep : levelStep L bounds models ms i = some ms' := by
    simp only [levelStep]
    rw [if_neg hLi]
  refine ⟨ms', hstep, ⟨?_, ?_⟩, fun p hp => List.mem_append_left _ hp⟩
  · intro b hb
    rw [hms', cntKey_append]
    by_cases hcm : alreadyMatched ms b
    · have hz : cntKey (rb.flatMap (fun b =>
          (rm.filter (fun m => keyMatches (L - i) b m)).map (fun m => (b, m)))) b.key = 0 := by
        apply cntKey_flatMap_zero
        intro b' hb' hkeq
        have hb'f := List.mem_filter.1 hb'
        have hcongr := alreadyMatched_key_congr ms hkeq
        rw [hcongr, hcm] at hb'f
        simp at hb'f
      rw [hz]
      have := hinv.1 b hb
      omega
    · have h0 : cntKey ms b.key = 0 := by
        by_contra h
        exact hcm ((alreadyMatched_iff ms b).2 h)
      have hbin : b ∈ rb := List.mem_filter.2 ⟨hb, by simp [hcm]⟩
      rw [h0, cntKey_flatMap_of_mem hrbnd hbin rfl]
      have hle1 : ((rm.filter (fun m => keyMatches (L - i) b m)).length ≤ 1) := by
        apply length_filter_le_one_of_keys_eq
        · exact List.Nodup.sublist (List.Sublist.map _ (List.filter_sublist _)) hmnd
        · intro m hmrm hq
          have hm1 := List.mem_filter.1 hmrm
          exact matched_model_keys (le_of_lt hiL) (hbk b hb)
            (hpat m hm1.1) hm1.2 hq
      omega
  · intro p hp
    rcases List.mem_append.1 hp with h | h
    · exact hinv.2 p h
    · rw [List.mem_flatMap] at h
      obtain ⟨b, hbrb, hpm⟩ := h
      obtain ⟨m, hmf, rfl⟩ := List.mem_map.1 hpm
      have hb2 : b ∈ bounds := (List.mem_filter.1 hbrb).1
      have hmf2 := List.mem_filter.1 hmf
      have hm2 : m ∈ models := (List.mem_filter.1 hmf2.1).1
      have hns := (List.mem_filter.1 hmf2.1).2
      refine ⟨hb2, hm2, L - i, by omega, ?_⟩
      have hk := matched_model_keys (le_of_lt hiL) (hbk b hb2) (hpat m hm2) hns hmf2.2
      rw [hk]
      have hrepl : L - (L - i) = i := by omega
      rw [hrepl]

theorem levelStep_final {L : ℕ} {bounds : List BoundRow} {models : List GRow}
    {ms : List (BoundRow × GRow)}
    (hbk : ∀ b ∈ bounds, b.key.length = L)
    (hnd : (bounds.map (fun b => b.key)).Nodup)
    (hpat : ∀ m ∈ models, rowPattern L m)
    (htop : (models.filter (fun m => m.keys.all (fun o => o.isNone))).length = 1)
    (hinv : MatchInv L bounds models ms) :
    ∃ ms', levelStep L bounds models ms L = some ms'
      ∧ (∀ b ∈ bounds, cntKey ms' b.key = 1)
      ∧ (∀ p ∈ ms', p.1 ∈ bounds ∧ p.2 ∈ models ∧ consistentPair L p)
      ∧ ∀ p ∈ ms, p ∈ ms' := by
  have hrm_eq : models.filter (fun m => noneSuffix L L m.keys)
      = models.filter (fun m => m.keys.all (fun o => o.isNone)) := by
    apply List.filter_congr
    intro m _
    rw [noneSuffix_self]
  have hrml : (models.filter (fun m => noneSuffix L L m.keys)).length = 1 := by
    rw [hrm_eq]
    exact htop
  set rm := models.filter (fun m => noneSuffix L L m.keys) with hrm
  set rb := bounds.filter (fun b => ! alreadyMatched ms b) with hrb
  set ms' := ms ++ rb.flatMap (fun b => rm.map (fun m => (b, m))) with hms'
  have hrbnd : (rb.map (fun b => b.key)).Nodup :=
    List.Nodup.sublist (List.Sublist.map _ (List.filter_sublist _)) hnd
  have hstep : levelStep L bounds models ms L = some ms' := by
    simp only [levelStep]
    rw [if_pos (Nat.sub_self L), if_pos (le_of_eq hrml)]
  refine ⟨ms', hstep, ?_, ?_, fun p hp => List.mem_append_left _ hp⟩
  · intro b hb
    rw [hms', cntKey_append]
    by_cases hcm : alreadyMatched ms b
    · have h1 : cntKey ms b.key ≠ 0 := (alreadyMatched_iff ms b).1 hcm
      have h2 : cntKey ms b.key ≤ 1 := hinv.1 b hb
      have hz : cntKey (rb.flatMap (fun b => rm.map (fun m => (b, m)))) b.key = 0 := by
        apply cntKey_flatMap_zero
        intro b' hb' hkeq
        have hb'f := List.mem_filter.1 hb'
        have hcongr := alreadyMatched_key_congr ms hkeq
        rw [hcongr, hcm] at hb'f
        simp at hb'f
      rw [hz]
      omega
    · have h0 : cntKey ms b.key = 0 := by
        by_contra h
        exact hcm ((alreadyMatched_iff ms b).2 h)
      have hbin : b ∈ rb := List.mem_filter.2 ⟨hb, by simp [hcm]⟩
      rw [h0, cntKey_flatMap_of_mem hrbnd hbin rfl, hrml]
  · intro p hp
    rcases List.mem_append.1 hp with h | h
    · exact hinv.2 p h
    · rw [List.mem_flatMap] at h
      obtain ⟨b, hbrb, hpm⟩ := h
      obtain ⟨m, hmf, rfl⟩ := List.mem_map.1 hpm
      have hb2 : b ∈ bounds := (List.mem_filter.1 hbrb).1
      have hmf2 := List.mem_filter.1 hmf
      have hm2 : m ∈ models := hmf2.1
      have hall : m.keys.all (fun o => o.isNone) = true := by
        rw [← noneSuffix_self L]
        exact hmf2.2
      refine ⟨hb2, hm2, 0, by omega, ?_⟩
      rw [top_row_keys (hpat m hm2) hall]
      simp

theorem foldlM_levelStep_inv {L : ℕ} {bounds : List BoundRow} {models : List GRow}
    (hbk : ∀ b ∈ bounds, b.key.length = L)
    (hnd : (bounds.map (fun b => b.key)).Nodup)
    (hmnd : (models.map (fun m => m.keys)).Nodup)
    (hpat : ∀ m ∈ models, rowPattern L m) :
    ∀ (l : List ℕ) (ms : List (BoundRow × GRow)),
      (∀ i ∈ l, 1 ≤ i ∧ i < L) → MatchInv L bounds models ms →
      ∃ ms', List.foldlM (levelStep L bounds models) ms l = some ms'
        ∧ MatchInv L bounds models ms' ∧ ∀ p ∈ ms, p ∈ ms' := by
  intro l
  induction l with
  | nil => exact fun ms _ hinv => ⟨ms, rfl, hinv, fun p hp => hp⟩
  | cons i t ih =>
    intro ms hmem hinv
    obtain ⟨hi1, hiL⟩ := hmem i (List.mem_cons_self i t)
    obtain ⟨ms1, hs1, hinv1, hsub1⟩ := levelStep_inv hi1 hiL hbk hnd hmnd hpat hinv
    obtain ⟨ms2, hs2, hinv2, hsub2⟩ :=
      ih ms1 (fun j hj => hmem j (List.mem_cons_of_mem i hj)) hinv1
    refine ⟨ms2, ?_, hinv2, fun p hp => hsub2 p (hsub1 p hp)⟩
    rw [List.foldlM_cons, hs1]
    simpa using hs2

/-- Resolution of the hierarchical matching loop: with well-formed
model rows (spec section 3 pattern, pairwise-distinct key rows, exactly
one pooled top-level row) and distinct full-keyed bound groups, the
loop succeeds and matches every group to exactly one model row, the
match being consistent with the group's key at some level; groups whose
full key combination was fit are matched to that row by the initial
inner join. -/
theorem matchLoop_spec {L : ℕ} {bounds : List BoundRow} {models : List GRow}
    (hL : 1 ≤ L)
    (hbk : ∀ b ∈ bounds, b.key.length = L)
    (hnd : (bounds.map (fun b => b.key)).Nodup)
    (hmnd : (models.map (fun m => m.keys)).Nodup)
    (hpat : ∀ m ∈ models, rowPattern L m)
    (htop : (models.filter (fun m => m.keys.all (fun o => o.isNone))).length = 1) :
    ∃ ms, matchLoop L bounds models = some ms
      ∧ (∀ b ∈ bounds, cntKey ms b.key = 1)
      ∧ (∀ p ∈ ms, p.1 ∈ bounds ∧ p.2 ∈ models ∧ consistentPair L p)
      ∧ ∀ p ∈ initMatch bounds models, p ∈ ms := by
  have h1L : 1 + (L - 1) = L := by omega
  have hrange : List.range' 1 L = List.range' 1 (L - 1) ++ [L] := by
    conv_lhs => rw [show L = (L - 1) + 1 by omega]
    rw [List.range'_concat]
    congr 2
    omega
  obtain ⟨ms1, hs1, hinv1, hsub1⟩ := foldlM_levelStep_inv hbk hnd hmnd hpat
    (List.range' 1 (L - 1)) (initMatch bounds models)
    (fun i hi => by
      rw [List.mem_range'] at hi
      obtain ⟨j, hj, rfl⟩ := hi
      omega)
    (initMatch_inv hbk hnd hmnd)
  obtain ⟨ms2, hs2, hcnt2, hpairs2, hsub2⟩ := levelStep_final hbk hnd hpat htop hinv1
  refine ⟨ms2, ?_, hcnt2, hpairs2, fun p hp => hsub2 p (hsub1 p hp)⟩
  rw [matchLoop, hrange, List.foldlM_append, hs1]
  simp [hs2]

/-- C1 conclusion: the loop succeeds, resolves every per-group bound
row to exactly one model row, each match agrees with the group's key on
the model's non-null level, and groups whose full key combination was
fit are matched to that very row (initial inner join). -/
def MatchSpec (L : ℕ) (bounds : List BoundRow) (models : List GRow) : Prop :=
  ∃ ms, matchLoop L bounds models = some ms
    ∧ (∀ b ∈ bounds, cntKey ms b.key = 1)
    ∧ (∀ p ∈ ms, p.1 ∈ bounds ∧ p.2 ∈ models ∧ consistentPair L p)
    ∧ ∀ b ∈ bounds, ∀ m ∈ models, m.keys = b.key.map some → (b, m) ∈ ms

/-- C1: the hierarchical model-matching loop of
`get_aggregate_prediction_intervals` resolves every per-group bound row
to exactly one fitted model row — direct matches by the initial inner
join, coarser fallbacks by joining on shorter key lists against rows
whose dropped keys are null, and the single top-level row joined to
every still-unmatched group — leaving no group unmatched, given the
data-model preconditions: at least one aggregation key, full non-null
keys on bound groups, distinct groups, model rows patterned as values
then nulls with pairwise-distinct key rows, and exactly one pooled
top-level row. -/
theorem matchLoop_resolves_all {L : ℕ} {bounds : List BoundRow} {models : List GRow}
    (hL : 1 ≤ L)
    (hbk : ∀ b ∈ bounds, b.key.length = L)
    (hnd : (bounds.map (fun b => b.key)).Nodup)
    (hmnd : (models.map (fun m => m.keys)).Nodup)
    (hpat : ∀ m ∈ models, rowPattern L m)
    (htop : (models.filter (fun m => m.keys.all (fun o => o.isNone))).length = 1) :
    MatchSpec L bounds models := by
  obtain ⟨ms, h1, h2, h3, h4⟩ := matchLoop_spec hL hbk hnd hmnd hpat htop
  refine ⟨ms, h1, h2, h3, fun b hb m hm hkeys => h4 _ ?_⟩
  rw [initMatch, List.mem_flatMap]
  exact ⟨b, hb, List.mem_map.2 ⟨m, List.mem_filter.2 ⟨hm, decide_eq_true hkeys⟩, rfl⟩⟩

/-- C1 witness: two-level aggregation with one directly fit group, one
group that falls back one level, and a pooled top-level row. -/
theorem matchLoop_resolves_all_witness :
    MatchSpec 2
      [(⟨[0, 0], 1, 2, 3, 4⟩ : BoundRow), (⟨[0, 1], 1, 2, 3, 4⟩ : BoundRow)]
      [(⟨[some 0, some 0], 0, 1, 0, 1, 0⟩ : GRow),
       (⟨[some 0, Option.none], 0, 1, 0, 1, 0⟩ : GRow),
       (⟨[Option.none, Option.none], 0, 1, 0, 1, 0⟩ : GRow)] := by
  apply matchLoop_resolves_all
  · norm_num
  · intro b hb
    fin_cases hb <;> rfl
  · simp
  · simp
  · intro m hm
    fin_cases hm
    · exact ⟨[0, 0], by norm_num, rfl⟩
    · exact ⟨[0], by norm_num, rfl⟩
    · exact ⟨[], by norm_num, rfl⟩
  · rfl

/-! ### Facts about the grouping helpers -/

theorem mem_aggKeysN {nr : List AggUnit} {k : List ℚ} :
    k ∈ aggKeysN nr ↔ ∃ u ∈ nr, u.key = k := by
  simp [aggKeysN, List.mem_dedup]

theorem mem_aggKeysO {units : List ObsUnit} {k : List ℚ} :
    k ∈ aggKeysO units ↔ ∃ u ∈ units, u.key = k := by
  simp [aggKeysO, List.mem_dedup]

theorem nrSeen_eq_zero {nr : List AggUnit} {k : List ℚ}
    (h : ∀ u ∈ nr, u.key ≠ k) : nrSeen nr k = 0 := by
  rw [nrSeen]
  have hf : nr.filter (fun u => decide (u.key = k)) = [] := by
    rw [List.filter_eq_nil_iff]
    intro u hu
    simp [h u hu]
  rw [hf]
  rfl

theorem obsSum_eq_zero {units : List ObsUnit} {k : List ℚ}
    (h : ∀ u ∈ units, u.key ≠ k) :
    ((units.filter (fun u => decide (u.key = k))).map (fun u => u.results)).sum = 0 := by
  have hf : units.filter (fun u => decide (u.key = k)) = [] := by
    rw [List.filter_eq_nil_iff]
    intro u hu
    simp [h u hu]
  rw [hf]
  rfl

theorem mem_obsGroupVotes {units : List ObsUnit} {p : List ℚ × ℚ}
    (hp : p ∈ obsGroupVotes units) :
    p.1 ∈ aggKeysO units
    ∧ p.2 = ((units.filter (fun u => decide (u.key = p.1))).map (fun u => u.results)).sum := by
  obtain ⟨k, hk, rfl⟩ := List.mem_map.1 hp
  exact ⟨hk, rfl⟩

theorem obsGroupVotes_mem_of_key {units : List ObsUnit} {k : List ℚ}
    (hk : k ∈ aggKeysO units) :
    (k, ((units.filter (fun u => decide (u.key = k))).map (fun u => u.results)).sum)
      ∈ obsGroupVotes units :=
  List.mem_map.2 ⟨k, hk, rfl⟩

theorem boundRows_keys (nr : List AggUnit) (cl cu : List ℚ) :
    (boundRows nr cl cu).map (fun b => b.key) = aggKeysN nr := by
  rw [boundRows, List.map_map]
  exact List.map_id _

/-- Per-row ordering facts for the grouped bounds: with pointwise
ordered cached bounds and non-negative turnout, each group's weighted
lower sum is at most its upper sum and its weight sum is non-negative. -/
theorem boundRows_facts {nr : List AggUnit} {cl cu : List ℚ}
    (hcc : ∀ pr ∈ cl.zip cu, pr.1 ≤ pr.2)
    (htv : ∀ u ∈ nr, 0 ≤ u.total_voters) :
    ∀ b ∈ boundRows nr cl cu, b.lower_sum ≤ b.upper_sum ∧ 0 ≤ b.weight_sum := by
  intro b hb
  obtain ⟨k, hk, rfl⟩ := List.mem_map.1 hb
  constructor
  · apply List.sum_le_sum
    intro pr hpr
    have hpr2 := List.mem_filter.1 hpr
    have h1 : pr.1 ∈ nr := (List.of_mem_zip hpr2.1).1
    have h2 : pr.2 ∈ cl.zip cu := (List.of_mem_zip hpr2.1).2
    exact mul_le_mul_of_nonneg_left (hcc pr.2 h2) (htv pr.1 h1)
  · apply List.sum_nonneg
    intro q hq
    obtain ⟨pr, hpr, rfl⟩ := List.mem_map.1 hq
    exact htv pr.1 (List.of_mem_zip (List.mem_filter.1 hpr).1).1

/-! ### C5 and C6: cache precondition and the empty short-circuit -/

/-- C6 conclusion at given inputs: the short-circuit returns the
observed aggregate totals exactly as both bounds, those totals are the
per-group sums of observed results, and every observed unit's group is
present. -/
def ShortCircuitSpec (L : ℕ) (reporting unexpected : List ObsUnit) (nr : List AggUnit)
    (models : List GRow) (cache : Option (List ℚ × List ℚ)) (z : ℚ) (sq : ℚ → ℚ) : Prop :=
  get_aggregate_prediction_intervals L reporting unexpected nr models cache z sq
    = Except.ok ((obsGroupVotes (reporting ++ unexpected)).map (fun p => (p.1, p.2, p.2)))
  ∧ (∀ p ∈ obsGroupVotes (reporting ++ unexpected),
      p.2 = (((reporting ++ unexpected).filter (fun u => decide (u.key = p.1))).map
        (fun u => u.results)).sum)
  ∧ ∀ u ∈ reporting ++ unexpected,
      u.key ∈ (obsGroupVotes (reporting ++ unexpected)).map (fun p => p.1)

/-- C6: with an empty nonreporting set the aggregate corrector returns
the observed aggregate totals exactly (unrounded), as both bounds. -/
theorem empty_nonreporting_short_circuit (L : ℕ) (reporting unexpected : List ObsUnit)
    (nr : List AggUnit) (models : List GRow) (cache : Option (List ℚ × List ℚ))
    (z : ℚ) (sq : ℚ → ℚ) (h : nr = []) :
    ShortCircuitSpec L reporting unexpected nr models cache z sq := by
  subst h
  refine ⟨rfl, ?_, ?_⟩
  · intro p hp
    exact (mem_obsGroupVotes hp).2
  · intro u hu
    rw [obsGroupVotes, List.map_map]
    have h2 : ((fun p => p.1) ∘ fun k =>
        (k, ((((reporting ++ unexpected).filter (fun u => decide (u.key = k))).map
          (fun u => u.results)).sum))) = id := rfl
    rw [h2, List.map_id]
    exact mem_aggKeysO.2 ⟨u, hu, rfl⟩

/-- C6 witness. -/
theorem empty_nonreporting_short_circuit_witness :
    ShortCircuitSpec 1 [(⟨[0], 2⟩ : ObsUnit)] [] [] [] Option.none 0 (fun q => q) :=
  empty_nonreporting_short_circuit 1 [(⟨[0], 2⟩ : ObsUnit)] [] [] [] Option.none 0
    (fun q => q) rfl

/-- C5 (amended): when at least one unit is nonreporting and the cache
was never populated, the aggregate corrector raises (`AttributeError`
on the missing `self.nonreporting_lower_bounds`). -/
theorem cache_error_amended (L : ℕ) (reporting unexpected : List ObsUnit)
    (nr : List AggUnit) (models : List GRow) (z : ℚ) (sq : ℚ → ℚ) (hnr : nr ≠ []) :
    get_aggregate_prediction_intervals L reporting unexpected nr models Option.none z sq
      = Except.error AggError.attributeError := by
  have hne : ¬ (nr.isEmpty = true) := by
    simpa [List.isEmpty_iff] using hnr
  simp only [get_aggregate_prediction_intervals]
  rw [if_neg hne]

/-- C5 witness. -/
theorem cache_error_amended_witness :
    get_aggregate_prediction_intervals 1 [] [] [(⟨[0], 1, 0, 0⟩ : AggUnit)] []
      Option.none 0 (fun q => q) = Except.error AggError.attributeError :=
  cache_error_amended 1 [] [] [(⟨[0], 1, 0, 0⟩ : AggUnit)] [] 0 (fun q => q) (by simp)

/-- C5 counterexample: with zero nonreporting units the function
returns a result without touching the missing cache, so "invoked
without a populated cache implies an error" fails as stated. -/
theorem cache_error_counterexample :
    get_aggregate_prediction_intervals 1 [(⟨[0], 1⟩ : ObsUnit)] [] [] [] Option.none 0
        (fun q => q) = Except.ok [([0], 1, 1)]
    ∧ ∀ e, get_aggregate_prediction_intervals 1 [(⟨[0], 1⟩ : ObsUnit)] [] [] [] Option.none 0
        (fun q => q) ≠ Except.error e := by
  have hok : get_aggregate_prediction_intervals 1 [(⟨[0], 1⟩ : ObsUnit)] [] [] []
      Option.none 0 (fun q => q) = Except.ok [([0], 1, 1)] := by
    norm_num [get_aggregate_prediction_intervals, obsGroupVotes, aggKeysO,
      List.dedup_cons_of_not_mem]
  refine ⟨hok, fun e h => ?_⟩
  rw [hok] at h
  exact Except.noConfusion h

/-! ### C7: whole-number outputs -/

/-- C7 counterexample: on the empty-nonreporting short-circuit path the
observed totals are returned raw, so a fractional observed result 1/2
reaches the output unrounded. -/
theorem rounding_counterexample :
    get_aggregate_prediction_intervals 1 [(⟨[0], 1/2⟩ : ObsUnit)] [] [] [] Option.none 0
        (fun q => q) = Except.ok [([0], 1/2, 1/2)]
    ∧ ((1/2 : ℚ)).den ≠ 1 := by
  constructor
  · norm_num [get_aggregate_prediction_intervals, obsGroupVotes, aggKeysO,
      List.dedup_cons_of_not_mem]
  · norm_num

/-- C7 (amended): every bound produced by the unit corrector, and every
bound produced by the aggregate corrector when at least one unit is
nonreporting, is a whole number; the empty-nonreporting short-circuit
returns the raw observed sums, which need not be whole. -/
theorem rounding_amended :
    (∀ lc uc units, (∀ q ∈ (get_unit_prediction_intervals lc uc units).lower, q.den = 1)
      ∧ (∀ q ∈ (get_unit_prediction_intervals lc uc units).upper, q.den = 1))
    ∧ (∀ L reporting unexpected nr models cache z sq out, nr ≠ [] →
        get_aggregate_prediction_intervals L reporting unexpected nr models cache z sq
          = Except.ok out →
        ∀ p ∈ out, (p.2.1).den = 1 ∧ (p.2.2).den = 1) := by
  constructor
  · intro lc uc units
    constructor <;> intro q hq
    · obtain ⟨u, _, rfl⟩ := List.mem_map.1 hq
      exact roundQ_den_one _
    · obtain ⟨u, _, rfl⟩ := List.mem_map.1 hq
      exact roundQ_den_one _
  · intro L reporting unexpected nr models cache z sq out hnr hok p hp
    have hne : ¬ (nr.isEmpty = true) := by
      simpa [List.isEmpty_iff] using hnr
    simp only [get_aggregate_prediction_intervals] at hok
    rw [if_neg hne] at hok
    split at hok
    · exact absurd hok (by simp)
    · split at hok
      · split at hok
        · exact absurd hok (by simp)
        · simp only [Except.ok.injEq] at hok
          subst hok
          obtain ⟨r, _, rfl⟩ := List.mem_map.1 hp
          exact ⟨roundQ_den_one _, roundQ_den_one _⟩
      · exact absurd hok (by simp)

/-- C7 witness. -/
theorem rounding_amended_witness :
    (unitLowerBound 1 (⟨0, 1, 2, 3, 4⟩ : NRUnit)).den = 1 :=
  (rounding_amended.1 1 1 [(⟨0, 1, 2, 3, 4⟩ : NRUnit)]).1 _ (List.mem_singleton.2 rfl)

/-! ### C3: aggregate floor and ordering -/

theorem get_agg_eval (L : ℕ) (reporting unexpected : List ObsUnit) (nr : List AggUnit)
    (models : List GRow) (cl cu : List ℚ) (z : ℚ) (sq : ℚ → ℚ)
    (ms : List (BoundRow × GRow)) (hnr : nr ≠ [])
    (h1 : cl.length = nr.length) (h2 : cu.length = nr.length)
    (hml : matchLoop L (boundRows nr cl cu) models = some ms) :
    get_aggregate_prediction_intervals L reporting unexpected nr models
        (some (cl, cu)) z sq
      = Except.ok ((outerRows (obsGroupVotes (reporting ++ unexpected))
          (predictionRows nr z sq ms)).map
          (fun r => (r.1, roundQ (r.2.2.1 + r.2.1), roundQ (r.2.2.2 + r.2.1)))) := by
  have hne : ¬ (nr.isEmpty = true) := by
    simpa [List.isEmpty_iff] using hnr
  have hstep : get_aggregate_prediction_intervals L reporting unexpected nr models
      (some (cl, cu)) z sq
      = (if cl.length = nr.length ∧ cu.length = nr.length then
          match matchLoop L (boundRows nr cl cu) models with
          | Option.none => Except.error AggError.assertionError
          | Option.some modeled =>
            Except.ok ((outerRows (obsGroupVotes (reporting ++ unexpected))
              (predictionRows nr z sq modeled)).map
              (fun r => (r.1, roundQ (r.2.2.1 + r.2.1), roundQ (r.2.2.2 + r.2.1))))
        else Except.error AggError.valueError) := by
    simp only [get_aggregate_prediction_intervals]
    rw [if_neg hne]
  rw [hstep, if_pos ⟨h1, h2⟩, hml]

theorem obsSum_int {units : List ObsUnit} (h : ∀ u ∈ units, (u.results).den = 1)
    (k : List ℚ) :
    ∃ zz : ℤ, ((units.filter (fun u => decide (u.key = k))).map
      (fun u => u.results)).sum = (zz : ℚ) := by
  apply sum_int_of_den_one
  intro q hq
  obtain ⟨u, hu, rfl⟩ := List.mem_map.1 hq
  exact h u (List.mem_of_mem_filter hu)

theorem nrSeen_int {nr : List AggUnit} (h : ∀ u ∈ nr, (u.results).den = 1)
    (k : List ℚ) : ∃ zz : ℤ, nrSeen nr k = (zz : ℚ) := by
  apply sum_int_of_den_one
  intro q hq
  obtain ⟨u, hu, rfl⟩ := List.mem_map.1 hq
  exact h u (List.mem_of_mem_filter hu)

theorem predictionRows_facts {L : ℕ} {nr : List AggUnit} {models : List GRow}
    {cl cu : List ℚ} {ms : List (BoundRow × GRow)} (z : ℚ) (sq : ℚ → ℚ)
    (hcc : ∀ pr ∈ cl.zip cu, pr.1 ≤ pr.2)
    (htv : ∀ u ∈ nr, 0 ≤ u.total_voters)
    (hz : 0 ≤ z) (hsq : ∀ q, 0 ≤ sq q)
    (hmod : ∀ m ∈ models, 0 ≤ m.mu_lower_bound ∧ 0 ≤ m.sigma_lower_bound
        ∧ 0 ≤ m.mu_upper_bound ∧ 0 ≤ m.sigma_upper_bound)
    (hwf : ∀ p ∈ ms, p.1 ∈ boundRows nr cl cu ∧ p.2 ∈ models ∧ consistentPair L p) :
    ∀ q ∈ predictionRows nr z sq ms,
      q.1 ∈ aggKeysN nr ∧ nrSeen nr q.1 ≤ q.2.1 ∧ q.2.1 ≤ q.2.2 := by
  intro q hq
  rw [predictionRows, List.mem_flatMap] at hq
  obtain ⟨k, hk, hq2⟩ := hq
  obtain ⟨r, hr, rfl⟩ := List.mem_map.1 hq2
  refine ⟨hk, le_max_right _ _, ?_⟩
  apply max_le_max _ le_rfl
  apply add_le_add_left
  have hrf := List.mem_filter.1 hr
  obtain ⟨p, hp, rfl⟩ := List.mem_map.1 hrf.1
  obtain ⟨hpb, hpm, _⟩ := hwf p hp
  obtain ⟨hbs, hbw⟩ := boundRows_facts hcc htv p.1 hpb
  obtain ⟨hmu1, hs1, hmu2, hs2⟩ := hmod p.2 hpm
  simp only [modeledLB]
  have hcl : 0 ≤ p.1.weight_sum * p.2.mu_lower_bound
      + p.2.sigma_lower_bound * sq (p.1.weight_ssum + p.2.var_inflate * p.1.weight_sum ^ 2) * z :=
    add_nonneg (mul_nonneg hbw hmu1) (mul_nonneg (mul_nonneg hs1 (hsq _)) hz)
  have hcu : 0 ≤ p.1.weight_sum * p.2.mu_upper_bound
      + p.2.sigma_upper_bound * sq (p.1.weight_ssum + p.2.var_inflate * p.1.weight_sum ^ 2) * z :=
    add_nonneg (mul_nonneg hbw hmu2) (mul_nonneg (mul_nonneg hs2 (hsq _)) hz)
  linarith

theorem predictionRows_exists {nr : List AggUnit} {z : ℚ} {sq : ℚ → ℚ}
    {ms : List (BoundRow × GRow)} {k : List ℚ} (hk : k ∈ aggKeysN nr)
    (hcnt : cntKey ms k = 1) :
    ∃ q ∈ predictionRows nr z sq ms, q.1 = k := by
  have hlen : ((ms.map (modeledLB z sq)).filter (fun r => decide (r.1 = k))).length
      = cntKey ms k := by
    rw [List.filter_map, List.length_map]
    rfl
  rw [hcnt] at hlen
  have hne : (ms.map (modeledLB z sq)).filter (fun r => decide (r.1 = k)) ≠ [] := by
    intro h
    rw [h] at hlen
    simp at hlen
  obtain ⟨r, hr⟩ := List.exists_mem_of_ne_nil _ hne
  refine ⟨(k, max (lastElectionSum nr k + r.2.1) (nrSeen nr k),
    max (lastElectionSum nr k + r.2.2) (nrSeen nr k)), ?_, rfl⟩
  rw [predictionRows, List.mem_flatMap]
  exact ⟨k, hk, List.mem_map.2 ⟨r, hr, rfl⟩⟩

/-- C3 conclusion at given inputs: the aggregate corrector succeeds and
every output row has ordered bounds with the lower bound at least the
group's total observed results (reporting, unexpected, and votes
already seen in nonreporting units). -/
def AggFloorSpec (L : ℕ) (reporting unexpected : List ObsUnit) (nr : List AggUnit)
    (models : List GRow) (cl cu : List ℚ) (z : ℚ) (sq : ℚ → ℚ) : Prop :=
  ∃ out, get_aggregate_prediction_intervals L reporting unexpected nr models
      (some (cl, cu)) z sq = Except.ok out
    ∧ ∀ p ∈ out, p.2.1 ≤ p.2.2
      ∧ nrSeen nr p.1 + (((reporting ++ unexpected).filter
          (fun u => decide (u.key = p.1))).map (fun u => u.results)).sum ≤ p.2.1

/-- C3 (amended): under the data-model preconditions (cache populated
with pointwise ordered bounds of the right length, non-negative
turnout, whole-number observed results, non-negative fitted means and
sigmas, non-negative quantile and square root, well-formed model rows
with one pooled top row) every aggregate output row satisfies
`lower ≤ upper` and both bounds are at least the group's observed
results. -/
theorem aggregate_intervals_floor_amended (L : ℕ) (reporting unexpected : List ObsUnit)
    (nr : List AggUnit) (models : List GRow) (cl cu : List ℚ) (z : ℚ) (sq : ℚ → ℚ)
    (hL : 1 ≤ L)
    (hkeys : ∀ u ∈ nr, u.key.length = L)
    (hlen1 : cl.length = nr.length) (hlen2 : cu.length = nr.length)
    (hcc : ∀ pr ∈ cl.zip cu, pr.1 ≤ pr.2)
    (htv : ∀ u ∈ nr, 0 ≤ u.total_voters)
    (hriO : ∀ u ∈ reporting ++ unexpected, (u.results).den = 1)
    (hriN : ∀ u ∈ nr, (u.results).den = 1)
    (hz : 0 ≤ z) (hsq : ∀ q, 0 ≤ sq q)
    (hmod : ∀ m ∈ models, 0 ≤ m.mu_lower_bound ∧ 0 ≤ m.sigma_lower_bound
        ∧ 0 ≤ m.mu_upper_bound ∧ 0 ≤ m.sigma_upper_bound)
    (hpat : ∀ m ∈ models, rowPattern L m)
    (hmnd : (models.map (fun m => m.keys)).Nodup)
    (htop : (models.filter (fun m => m.keys.all (fun o => o.isNone))).length = 1) :
    AggFloorSpec L reporting unexpected nr models cl cu z sq := by
  by_cases hnre : nr = []
  · subst hnre
    refine ⟨_, rfl, ?_⟩
    intro p hp
    obtain ⟨pp, hpp, rfl⟩ := List.mem_map.1 hp
    have h2 := (mem_obsGroupVotes hpp).2
    refine ⟨le_refl _, ?_⟩
    dsimp only
    rw [show nrSeen [] pp.1 = 0 from rfl, zero_add, ← h2]
  · have hbk : ∀ b ∈ boundRows nr cl cu, b.key.length = L := by
      intro b hb
      obtain ⟨k, hk, rfl⟩ := List.mem_map.1 hb
      obtain ⟨u, hu, rfl⟩ := mem_aggKeysN.1 hk
      exact hkeys u hu
    have hnd : ((boundRows nr cl cu).map (fun b => b.key)).Nodup := by
      rw [boundRows_keys]
      exact List.nodup_dedup _
    obtain ⟨ms, hml, hcnt, hwf, _⟩ := matchLoop_spec hL hbk hnd hmnd hpat htop
    have hpf := predictionRows_facts z sq hcc htv hz hsq hmod hwf
    refine ⟨_, get_agg_eval L reporting unexpected nr models cl cu z sq ms hnre
      hlen1 hlen2 hml, ?_⟩
    intro p hp
    obtain ⟨r, hr, rfl⟩ := List.mem_map.1 hp
    rw [outerRows] at hr
    rcases List.mem_append.1 hr with hA | hB
    · rw [List.mem_flatMap] at hA
      obtain ⟨a, ha, hra⟩ := hA
      have haf := mem_obsGroupVotes ha
      obtain ⟨zo, hzo⟩ := obsSum_int hriO a.1
      by_cases hps : ((predictionRows nr z sq ms).filter
          (fun q => decide (q.1 = a.1))).isEmpty
      · rw [if_pos hps] at hra
        rw [List.mem_singleton] at hra
        subst hra
        refine ⟨le_refl _, ?_⟩
        dsimp only
        have hseen : nrSeen nr a.1 = 0 := by
          apply nrSeen_eq_zero
          intro u hu hukey
          have hkmem : a.1 ∈ aggKeysN nr := mem_aggKeysN.2 ⟨u, hu, hukey⟩
          have hkey : cntKey ms a.1 = 1 := hcnt _ (List.mem_map.2 ⟨a.1, hkmem, rfl⟩)
          obtain ⟨q, hq, hqk⟩ := predictionRows_exists hkmem hkey
          rw [List.isEmpty_iff] at hps
          have hmemf : q ∈ (predictionRows nr z sq ms).filter
              (fun q => decide (q.1 = a.1)) :=
            List.mem_filter.2 ⟨hq, decide_eq_true hqk⟩
          rw [hps] at hmemf
          exact absurd hmemf (List.not_mem_nil q)
        rw [hseen, zero_add, haf.2, hzo]
        exact int_le_roundQ (by rw [zero_add])
      · rw [if_neg hps] at hra
        obtain ⟨q, hq, rfl⟩ := List.mem_map.1 hra
        have hqf := List.mem_filter.1 hq
        have hqk : q.1 = a.1 := of_decide_eq_true hqf.2
        obtain ⟨_, hfloor, hord⟩ := hpf q hqf.1
        obtain ⟨zs, hzs⟩ := nrSeen_int hriN a.1
        refine ⟨roundQ_mono (add_le_add_right hord _), ?_⟩
        dsimp only
        have hfl : nrSeen nr a.1 ≤ q.2.1 := hqk ▸ hfloor
        have hcast : ((zs + zo : ℤ) : ℚ) ≤ q.2.1 + a.2 := by
          push_cast
          rw [← hzs, ← hzo, ← haf.2]
          exact add_le_add_right hfl _
        have h2 := int_le_roundQ hcast
        rw [hzs, hzo]
        push_cast at h2
        exact h2
    · obtain ⟨q, hq, rfl⟩ := List.mem_map.1 hB
      have hqf := List.mem_filter.1 hq
      obtain ⟨_, hfloor, hord⟩ := hpf q hqf.1
      obtain ⟨zs, hzs⟩ := nrSeen_int hriN q.1
      refine ⟨roundQ_mono (add_le_add_right hord _), ?_⟩
      dsimp only
      have hobs0 : (((reporting ++ unexpected).filter
          (fun u => decide (u.key = q.1))).map (fun u => u.results)).sum = 0 := by
        apply obsSum_eq_zero
        intro u hu hukey
        have hmem : (q.1, (((reporting ++ unexpected).filter
            (fun u => decide (u.key = q.1))).map (fun u => u.results)).sum)
            ∈ obsGroupVotes (reporting ++ unexpected) :=
          obsGroupVotes_mem_of_key (mem_aggKeysO.2 ⟨u, hu, hukey⟩)
        have hall := List.all_eq_true.1 hqf.2 _ hmem
        simp at hall
      rw [hobs0, add_zero, hzs]
      exact int_le_roundQ (by rw [add_zero, ← hzs]; exact hfloor)

/-- C3 witness at a concrete input with one observed and one
nonreporting group. -/
theorem aggregate_intervals_floor_amended_witness :
    AggFloorSpec 1 [(⟨[0], 2⟩ : ObsUnit)] [] [(⟨[0], 1, 0, 1⟩ : AggUnit)]
      [(⟨[Option.none], 0, 1, 0, 1, 0⟩ : GRow)] [0] [0] 1 (fun _ => 0) := by
  apply aggregate_intervals_floor_amended
  · norm_num
  · intro u hu
    rw [List.mem_singleton] at hu
    subst hu
    rfl
  · rfl
  · rfl
  · intro pr hpr
    rw [show (([0] : List ℚ).zip [0]) = [((0 : ℚ), (0 : ℚ))] from rfl,
      List.mem_singleton] at hpr
    subst hpr
    exact le_refl _
  · intro u hu
    rw [List.mem_singleton] at hu
    subst hu
    norm_num
  · intro u hu
    simp only [List.append_nil, List.mem_singleton] at hu
    subst hu
    rfl
  · intro u hu
    rw [List.mem_singleton] at hu
    subst hu
    rfl
  · norm_num
  · intro q
    exact le_refl _
  · intro m hm
    rw [List.mem_singleton] at hm
    subst hm
    norm_num
  · intro m hm
    rw [List.mem_singleton] at hm
    subst hm
    exact ⟨[], by norm_num, rfl⟩
  · simp
  · rfl

/-- C3 counterexample: a negative fitted mean makes the Gaussian
correction negative; the resulting aggregate interval has upper bound 0
strictly below its lower bound 9, refuting `upper >= lower` as
stated. -/
theorem aggregate_intervals_counterexample :
    get_aggregate_prediction_intervals 1 [] [] [(⟨[0], 1, 0, 0⟩ : AggUnit)]
        [(⟨[Option.none], -10, 1, -10, 1, 0⟩ : GRow)] (some ([0], [0])) 1 (fun q => q)
      = Except.ok [([0], 9, 0)] ∧ ¬ ((9 : ℚ) ≤ 0) := by
  constructor
  · have hb : boundRows [(⟨[0], 1, 0, 0⟩ : AggUnit)] [0] [0]
        = [(⟨[0], 0, 0, 1, 1⟩ : BoundRow)] := by
      simp [boundRows, aggKeysN]
    have hml : matchLoop 1 [(⟨[0], 0, 0, 1, 1⟩ : BoundRow)]
        [(⟨[Option.none], -10, 1, -10, 1, 0⟩ : GRow)]
        = some [((⟨[0], 0, 0, 1, 1⟩ : BoundRow),
            (⟨[Option.none], -10, 1, -10, 1, 0⟩ : GRow))] := by
      simp [matchLoop, initMatch, levelStep, List.range', noneSuffix, keyMatches,
        alreadyMatched]
    have hml2 : matchLoop 1 (boundRows [(⟨[0], 1, 0, 0⟩ : AggUnit)] [0] [0])
        [(⟨[Option.none], -10, 1, -10, 1, 0⟩ : GRow)]
        = some [((⟨[0], 0, 0, 1, 1⟩ : BoundRow),
            (⟨[Option.none], -10, 1, -10, 1, 0⟩ : GRow))] := by
      rw [hb]
      exact hml
    rw [get_agg_eval 1 [] [] [(⟨[0], 1, 0, 0⟩ : AggUnit)]
      [(⟨[Option.none], -10, 1, -10, 1, 0⟩ : GRow)] [0] [0] 1 (fun q => q)
      [((⟨[0], 0, 0, 1, 1⟩ : BoundRow), (⟨[Option.none], -10, 1, -10, 1, 0⟩ : GRow))]
      (by simp) rfl rfl hml2]
    have hmlb : modeledLB 1 (fun q => q)
        ((⟨[0], 0, 0, 1, 1⟩ : BoundRow), (⟨[Option.none], -10, 1, -10, 1, 0⟩ : GRow))
        = ([0], 9, -9) := by
      simp only [modeledLB]
      norm_num
    have hpred : predictionRows [(⟨[0], 1, 0, 0⟩ : AggUnit)] 1 (fun q => q)
        [((⟨[0], 0, 0, 1, 1⟩ : BoundRow), (⟨[Option.none], -10, 1, -10, 1, 0⟩ : GRow))]
        = [([0], 9, 0)] := by
      simp only [predictionRows, aggKeysN, List.map_cons, List.map_nil, hmlb]
      simp [lastElectionSum, nrSeen, max_def]
    rw [hpred]
    have hout : outerRows (obsGroupVotes ([] ++ [])) [([0], 9, 0)]
        = [([0], 0, 9, 0)] := by
      simp [outerRows, obsGroupVotes, aggKeysO]
    rw [hout]
    simp only [List.map_cons, List.map_nil]
    have h9 : roundQ ((9 : ℚ) + 0) = 9 := by
      rw [add_zero]
      exact_mod_cast roundQ_intCast 9
    have h0 : roundQ ((0 : ℚ) + 0) = 0 := by
      rw [add_zero]
      exact_mod_cast roundQ_intCast 0
    rw [h9, h0]
  · norm_num

end ElexModel
